import Mathlib

/-!
# Verification of `tabpy`'s CNV parser (`src/tabpy/cnv.py`)

This file is a shallow embedding of the CNV-parsing core of the `tabpy`
repository, together with theorems settling the frozen claims about it.

Modelling conventions:
* Python `str` values are modelled as `List Char` (one entry per code point);
  Python string slicing, `strip`/`lstrip`/`rstrip` and `split` are modelled by
  the `py*`/`splitOnChar` helpers below.  Whitespace is modelled as the six
  ASCII whitespace characters that CPython's `str.strip` removes; `\d` in the
  source's regexes is modelled as the ASCII digits.
* Python `int` is modelled as `Int` (arbitrary precision in both worlds).
* Fallible Python code (functions that may raise) is modelled with
  `Except`, the error value carrying the offending text, mirroring
  `InvalidCnvFirstLine(...)`, `ValueError(...)` and `KeyError(...)`.
* Python `dict`s are modelled as association lists with last-write-wins
  insertion (`dictInsert`) which preserves CPython's key insertion order;
  `frozenset` fields whose iteration order the claims do not depend on are
  modelled as `List` in construction order.
-/

/-- The whitespace characters stripped by CPython's `str.strip` (ASCII part):
space, tab, newline, carriage return, vertical tab, form feed. -/
def isPyWs (c : Char) : Bool :=
  c == ' ' || c == '\t' || c == '\n' || c == '\r' || c == '\x0b' || c == '\x0c'

/-- Python `str.lstrip()`. -/
def pyLstrip (s : List Char) : List Char := s.dropWhile isPyWs

/-- Python `str.rstrip()`. -/
def pyRstrip (s : List Char) : List Char := (s.reverse.dropWhile isPyWs).reverse

/-- Python `str.strip()`. -/
def pyStrip (s : List Char) : List Char := pyRstrip (pyLstrip s)

/-- Python string comparison `a <= b`: lexicographic over code points,
a proper prefix being smaller. -/
def pyStrLe : List Char → List Char → Bool
  | [], _ => true
  | _ :: _, [] => false
  | a :: as, b :: bs => if a = b then pyStrLe as bs else decide (a < b)

/-- Python `str.split(sep)` for a single-character separator `sep`
(note `"".split(sep) = [""]`, i.e. the result is never empty). -/
def splitOnChar (sep : Char) : List Char → List (List Char)
  | [] => [[]]
  | c :: cs =>
    if c = sep then [] :: splitOnChar sep cs
    else
      match splitOnChar sep cs with
      | [] => [[c]]
      | p :: ps => (c :: p) :: ps

/-- Decimal value of a list of ASCII digits (the value `int(...)` assigns to a
string matched by `^\d+$`). -/
def digitsVal (s : List Char) : Int :=
  (s.foldl (fun a c => a * 10 + (c.toNat - '0'.toNat)) 0 : Nat)

/-- Python `int(...)` applied to an already-stripped, unsigned payload:
accepts groups of ASCII digits separated by single underscores
(`\d+(_\d+)*`), whose value ignores the underscores. -/
def pyIntDigits (s : List Char) : Except (List Char) Int :=
  let parts := splitOnChar '_' s
  if parts.all (fun p => !p.isEmpty && p.all Char.isDigit) then
    .ok (digitsVal (s.filter (fun c => c ≠ '_')))
  else
    .error s

/-- Python `int(val)` on a string: strips surrounding whitespace, then an
optional sign followed by digit groups; raises `ValueError` (modelled as
`.error`) otherwise. -/
def pyInt (s : List Char) : Except (List Char) Int :=
  match pyStrip s with
  | '+' :: rest => pyIntDigits rest
  | '-' :: rest => (pyIntDigits rest).map (fun n => -n)
  | rest => pyIntDigits rest

/-- `int_or_none` from `cnv.py`: strip; empty means `None`; otherwise
`int(...)` (which may raise). -/
def int_or_none (val : List Char) : Except (List Char) (Option Int) :=
  let v := pyStrip val
  if v = [] then .ok none
  else (pyInt v).map some

/-- `IntRange` from `cnv.py` (Python field `end` is named `stop` here,
`end` being a Lean keyword). -/
structure IntRange where
  start : Int
  stop : Int
deriving DecidableEq, Repr

/-- `IntRange.__contains__`: `self.start <= item <= self.end`. -/
def IntRange.containsB (r : IntRange) (item : Int) : Bool :=
  decide (r.start ≤ item) && decide (item ≤ r.stop)

/-- `StrRange` from `cnv.py` (Python field `end` is named `stop` here). -/
structure StrRange where
  start : List Char
  stop : List Char
deriving DecidableEq, Repr

/-- `StrRange.__contains__`: the length guard plus the two lexicographic
comparisons. -/
def StrRange.containsB (r : StrRange) (item : List Char) : Bool :=
  let min_len := min r.start.length r.stop.length
  let max_len := max r.start.length r.stop.length
  decide (min_len ≤ item.length) && decide (item.length ≤ max_len) &&
    pyStrLe r.start item && pyStrLe item r.stop

/-- `Code = int|str` from `cnv.py`.  Python `==` between an `int` and a `str`
is `False`, matching constructor-wise equality here. -/
inductive Code where
  | intC : Int → Code
  | strC : List Char → Code
deriving DecidableEq, Repr

/-- `CodeRange = IntRange|StrRange` from `cnv.py`. -/
inductive CodeRange where
  | intR : IntRange → CodeRange
  | strR : StrRange → CodeRange
deriving DecidableEq, Repr

/-- `item in range` for a `Code` against a `CodeRange`.  A type-mismatched
comparison (an `int` against a `StrRange` or a `str` against an `IntRange`)
would raise `TypeError` in Python 3; no parsed document mixes them and the
claims never do, so it is modelled as a non-match. -/
def codeInRange (item : Code) (r : CodeRange) : Bool :=
  match item, r with
  | .intC n, .intR ir => ir.containsB n
  | .strC s, .strR sr => sr.containsB s
  | _, _ => false

/-- `IntCodeRegex = ^\d+$`. -/
def intCodeMatch (s : List Char) : Bool :=
  !s.isEmpty && s.all Char.isDigit

/-- `IntRangeRegex = ^(\d+)-(\d+)$`: since `\d` cannot match `-`, a match
exists exactly when the string splits at a unique `-` into two nonempty
all-digit groups. -/
def intRangeMatch (s : List Char) : Option (List Char × List Char) :=
  match splitOnChar '-' s with
  | [a, b] =>
    if !a.isEmpty && a.all Char.isDigit && !b.isEmpty && b.all Char.isDigit then
      some (a, b)
    else none
  | _ => none

/-- `StrCodeRegex = ^([^-,]+)$`. -/
def strCodeMatch (s : List Char) : Bool :=
  !s.isEmpty && s.all (fun c => c != '-' && c != ',')

/-- `StrRangeRegex = ^([^-,]+)-([^-,]+)$`: since `[^-,]` cannot match `-`,
a match exists exactly when the string splits at a unique `-` into two
nonempty comma-free groups. -/
def strRangeMatch (s : List Char) : Option (List Char × List Char) :=
  match splitOnChar '-' s with
  | [a, b] =>
    if !a.isEmpty && a.all (fun c => c != ',') && !b.isEmpty && b.all (fun c => c != ',') then
      some (a, b)
    else none
  | _ => none

/-- `parse_category_code` from `cnv.py`: integer patterns first when
`only_strings` is false, then the string-code pattern, then the string-range
pattern, else `ValueError`. -/
def parse_category_code (item : List Char) (only_strings : Bool) :
    Except (List Char) (Sum Code CodeRange) :=
  let intStep : Option (Sum Code CodeRange) :=
    if only_strings then none
    else if intCodeMatch item then some (.inl (.intC (digitsVal item)))
    else
      match intRangeMatch item with
      | some (a, b) => some (.inr (.intR ⟨digitsVal a, digitsVal b⟩))
      | none => none
  match intStep with
  | some v => .ok v
  | none =>
    if strCodeMatch item then .ok (.inl (.strC item))
    else
      match strRangeMatch item with
      | some (a, b) => .ok (.inr (.strR ⟨a, b⟩))
      | none => .error item

/-- `map` with error propagation, modelling a Python loop that may raise. -/
def mapME (f : α → Except ε β) : List α → Except ε (List β)
  | [] => .ok []
  | x :: xs =>
    match f x, mapME f xs with
    | .ok y, .ok ys => .ok (y :: ys)
    | .error e, _ => .error e
    | .ok _, .error e => .error e

/-- `parse_category_codes` from `cnv.py`: split the specification on commas,
parse every token, then partition into literal codes and ranges preserving
order (the two `filter(isinstance(...))` calls). -/
def parse_category_codes (itens : List Char) (only_strings : Bool) :
    Except (List Char) (List Code × List CodeRange) :=
  let parts := splitOnChar ',' itens
  match mapME (fun x => parse_category_code x only_strings) parts with
  | .error e => .error e
  | .ok codes_and_ranges =>
    .ok (codes_and_ranges.filterMap (fun v => match v with | .inl c => some c | .inr _ => none),
         codes_and_ranges.filterMap (fun v => match v with | .inr r => some r | .inl _ => none))

/-- Python slice `l[a:b]` for `0 ≤ a ≤ b`. -/
def pySlice (l : List Char) (a b : Nat) : List Char := (l.drop a).take (b - a)

/-- `RawCategoryLine` from `cnv.py`. -/
structure RawCategoryLine where
  idx : Int
  parent_idx : Option Int
  name : List Char
  codes_spec : List Char
  codes : List Code
  code_ranges : List CodeRange
deriving DecidableEq, Repr

/-- `RawCategoryLine.from_cnv_line`: skip blank lines and comment lines
(first non-whitespace character `;`); otherwise append 70 spaces and decode
the fixed columns, propagating `ValueError` from `int(...)` /
`parse_category_codes`.  `.ok none` models the Python `None` (skip) result. -/
def RawCategoryLine.from_cnv_line (line : List Char) (only_strings : Bool) :
    Except (List Char) (Option RawCategoryLine) :=
  if pyStrip line = [] then .ok none
  else if (pyLstrip line).head? = some ';' then .ok none
  else
    let padded := line ++ List.replicate 70 ' '
    match int_or_none (pySlice padded 0 3) with
    | .error e => .error e
    | .ok parent =>
      match pyInt (pySlice padded 3 7) with
      | .error e => .error e
      | .ok idx =>
        let name := pyStrip (pySlice padded 9 59)
        let codes_spec := pyRstrip (padded.drop 60)
        match parse_category_codes codes_spec only_strings with
        | .error e => .error e
        | .ok (codes, code_ranges) =>
          .ok (some ⟨idx, parent, name, codes_spec, codes, code_ranges⟩)

/-- Maximal whitespace prefix split (`\s*` greedy). -/
def spanWs (s : List Char) : List Char × List Char :=
  (s.takeWhile isPyWs, s.dropWhile isPyWs)

/-- Maximal digit prefix split (`\d+` greedy). -/
def spanDigits (s : List Char) : List Char × List Char :=
  (s.takeWhile Char.isDigit, s.dropWhile Char.isDigit)

/-- The header regex `reFirstLine = \s*(\d+)\s+(\d+)(?:\s(L))?` applied with
`re.match` (anchored at the start only), followed by the
`letter_codes` decoding of lines 116-122 of `cnv.py`.  Deterministic
maximal-munch is equivalent to the backtracking regex here because a digit is
never whitespace: shrinking a maximal `\s*`/`\d+` group can never make the
following group match.  The group `(L)` can only ever capture `L`, so
`m.group(3)` is `None` or `'L'` and the `raise` on a non-`L` marker
(line 122) is unreachable: a non-matching trailer is simply left out of the
match.  Returns `(n_categories, code_length, letter_codes)` or
`InvalidCnvFirstLine(line)` as `.error line`. -/
def parseHeader (line : List Char) : Except (List Char) (Int × Int × Bool) :=
  let s1 := (spanWs line).2
  let (d1, r1) := spanDigits s1
  if d1 = [] then .error line
  else
    let (w2, r2) := spanWs r1
    if w2 = [] then .error line
    else
      let (d2, r3) := spanDigits r2
      if d2 = [] then .error line
      else
        let letter_codes : Bool :=
          match r3 with
          | c :: 'L' :: _ => isPyWs c
          | _ => false
        .ok (digitsVal d1, digitsVal d2, letter_codes)

/-- `Category` from `cnv.py`: an immutable tree node.  The Python
`children: FrozenSet[Category]` is modelled as a `List` in construction
order (CPython's `frozenset` iteration order is deterministic per object but
unspecified; no claim depends on a particular sibling order). -/
inductive Category where
  | mk (idx : Int) (name : List Char) (codes : List Code) (ranges : List CodeRange)
      (parent_idx : Option Int) (children : List Category)

def Category.idx : Category → Int
  | .mk i _ _ _ _ _ => i

def Category.name : Category → List Char
  | .mk _ n _ _ _ _ => n

def Category.codes : Category → List Code
  | .mk _ _ cs _ _ _ => cs

def Category.ranges : Category → List CodeRange
  | .mk _ _ _ rs _ _ => rs

def Category.parent_idx : Category → Option Int
  | .mk _ _ _ _ p _ => p

def Category.children : Category → List Category
  | .mk _ _ _ _ _ ch => ch

mutual
/-- The `_all_codes` cache computed in `Category.__post_init__`: the node's
own codes together with every descendant's.  Python stores a set; only
membership is ever consulted, so a list with the same members is used. -/
def Category.allCodes : Category → List Code
  | .mk _ _ cs _ _ children => cs ++ allCodesList children

def allCodesList : List Category → List Code
  | [] => []
  | c :: rest => Category.allCodes c ++ allCodesList rest
end

mutual
/-- The `_all_ranges` cache computed in `Category.__post_init__`. -/
def Category.allRanges : Category → List CodeRange
  | .mk _ _ _ rs _ children => rs ++ allRangesList children

def allRangesList : List Category → List CodeRange
  | [] => []
  | c :: rest => Category.allRanges c ++ allRangesList rest
end

/-- `Category.__contains__`: membership in the transitive code set or any
transitive range. -/
def Category.containsB (c : Category) (item : Code) : Bool :=
  (c.allCodes).any (fun x => decide (x = item)) ||
    (c.allRanges).any (fun r => codeInRange item r)

mutual
/-- `Category.get_leaf`: try every child first (in order), return the first
child's hit; only if no child claims the item, return the node itself when it
(transitively) contains the item, else `None`.  (The walrus-truthiness test in
the source is equivalent to an `is not None` test since `Category` objects
are always truthy.) -/
def Category.get_leaf : Category → Code → Option Category
  | .mk i n cs rs p children, item =>
    match getLeafList children item with
    | some ans => some ans
    | none =>
      if (Category.mk i n cs rs p children).containsB item then
        some (Category.mk i n cs rs p children)
      else none

def getLeafList : List Category → Code → Option Category
  | [], _ => none
  | c :: rest, item =>
    match c.get_leaf item with
    | some ans => some ans
    | none => getLeafList rest item
end

mutual
/-- `Category.get_path`: same traversal as `get_leaf` but returning the
top-down chain.  (`get_path` never returns the empty list, so Python's
truthiness test on the list coincides with an `is not None` test.) -/
def Category.get_path : Category → Code → Option (List Category)
  | .mk i n cs rs p children, item =>
    match getPathList children item with
    | some ans => some (Category.mk i n cs rs p children :: ans)
    | none =>
      if (Category.mk i n cs rs p children).containsB item then
        some [Category.mk i n cs rs p children]
      else none

def getPathList : List Category → Code → Option (List Category)
  | [], _ => none
  | c :: rest, item =>
    match c.get_path item with
    | some ans => some ans
    | none => getPathList rest item
end

/-- `CategorySet` from `cnv.py`; `categories` holds the root categories. -/
structure CategorySet where
  code_length : Int
  letter_codes : Bool
  categories : List Category

/-- `CategorySet.get_leaf`: first root (in iteration order) whose `get_leaf`
hits. -/
def CategorySet.get_leaf (cs : CategorySet) (item : Code) : Option Category :=
  getLeafList cs.categories item

/-- `CategorySet.__getitem__`: `get_leaf`, raising `KeyError(item)` (modelled
as `.error item`) when it returns `None`. -/
def CategorySet.getItem (cs : CategorySet) (item : Code) : Except Code Category :=
  match cs.get_leaf item with
  | some ans => .ok ans
  | none => .error item

/-- The inner generator `flatten` of `CategorySet.flat_categories` as
written: it yields `cat` and then, for each child, *calls* `flatten(child)` —
which in Python merely creates a generator object that is immediately
discarded (there is no `yield from`) — so the recursion contributes no
elements and the generator yields exactly `[cat]`. -/
def flattenGen (cat : Category) : List Category :=
  [cat] ++ (cat.children.map (fun _ => ([] : List Category))).flatten

/-- Insertion into a Python `dict` modelled as an association list:
an existing key keeps its position and gets the new value (last write wins),
a new key is appended. -/
def dictInsert (d : List (Int × Category)) (k : Int) (v : Category) :
    List (Int × Category) :=
  if d.any (fun p => decide (p.1 = k)) then
    d.map (fun p => if p.1 = k then (k, v) else p)
  else d ++ [(k, v)]

/-- Stable insertion by ascending `idx` (Python's stable `list.sort` with
`key=lambda x: x.idx`). -/
def insertByIdx (x : Category) : List Category → List Category
  | [] => [x]
  | y :: rest => if x.idx < y.idx then x :: y :: rest else y :: insertByIdx x rest

def sortByIdx : List Category → List Category
  | [] => []
  | x :: rest => insertByIdx x (sortByIdx rest)

/-- `CategorySet.flat_categories` as written in the source: fold every
element produced by the (broken) `flatten` generator into a dict keyed by
`idx`, then sort the values by `idx` and rebuild the dict. -/
def CategorySet.flat_categories (cs : CategorySet) : List (Int × Category) :=
  let d := cs.categories.foldl
    (fun d cat => (flattenGen cat).foldl (fun d item => dictInsert d item.idx item) d) []
  let vals := sortByIdx (d.map Prod.snd)
  vals.foldl (fun d item => dictInsert d item.idx item) []

/-- One step of `reduce(lambda a, b: a.codes + b.codes, raw_cat_lines)`.
The accumulator starts as the first `RawCategoryLine` (`Sum.inl`); after one
application it is a plain Python `list` (`Sum.inr`), which has no `.codes`
attribute, so a further step raises `AttributeError`. -/
def reduceCodesStep (acc : Sum RawCategoryLine (List Code)) (b : RawCategoryLine) :
    Except (List Char) (Sum RawCategoryLine (List Code)) :=
  match acc with
  | .inl a => .ok (.inr (a.codes ++ b.codes))
  | .inr _ => .error "AttributeError".data

/-- `functools.reduce` with no initializer over the `codes` lambda. -/
def reduceCodes (first : RawCategoryLine) (rest : List RawCategoryLine) :
    Except (List Char) (Sum RawCategoryLine (List Code)) :=
  rest.foldlM reduceCodesStep (.inl first)

/-- Analogue of `reduceCodesStep` for the `code_ranges` lambda. -/
def reduceRangesStep (acc : Sum RawCategoryLine (List CodeRange)) (b : RawCategoryLine) :
    Except (List Char) (Sum RawCategoryLine (List CodeRange)) :=
  match acc with
  | .inl a => .ok (.inr (a.code_ranges ++ b.code_ranges))
  | .inr _ => .error "AttributeError".data

def reduceRanges (first : RawCategoryLine) (rest : List RawCategoryLine) :
    Except (List Char) (Sum RawCategoryLine (List CodeRange)) :=
  rest.foldlM reduceRangesStep (.inl first)

/-- The per-group body of the "Join lines" loop of
`CategorySet.from_cnv_file` (lines 133-142): a single line is used as is;
otherwise the two `reduce` calls run and their results are written into a
copy of the first line via `dataclasses.replace`.  The `reduce` of a
single-element list would return the line itself (not a list); that branch is
unreachable because it is guarded by `len(raw_cat_lines) == 1`, and is
modelled as an error for the impossible shapes. -/
def joinGroup : List RawCategoryLine → Except (List Char) RawCategoryLine
  | [] => .error "empty group".data
  | [l] => .ok l
  | l0 :: l1 :: rest => do
    let codesAcc ← reduceCodes l0 (l1 :: rest)
    let rangesAcc ← reduceRanges l0 (l1 :: rest)
    match codesAcc, rangesAcc with
    | .inr codes, .inr code_ranges =>
      .ok { l0 with codes := codes, code_ranges := code_ranges }
    | _, _ => .error "AttributeError".data

/-- `direct_children[p]` after the "Compute children" loop (lines 145-151):
the indices of the records declaring `p` as parent, in record order. -/
def directChildren (cats : List RawCategoryLine) (p : Int) : List Int :=
  (cats.filter (fun r => decide (r.parent_idx = some p))).map (fun r => r.idx)

/-- The `roots` set (lines 146-149): indices of the parentless records.  The
Python `set`'s iteration order is unspecified; record order is used here, and
no claim depends on the order. -/
def rootsOf (cats : List RawCategoryLine) : List Int :=
  (cats.filter (fun r => decide (r.parent_idx = none))).map (fun r => r.idx)

/-- `raw_categories[cat_idx]` lookup (the dict is keyed by `idx`). -/
def findRaw (cats : List RawCategoryLine) (idx : Int) : Option RawCategoryLine :=
  cats.find? (fun r => decide (r.idx = idx))

mutual
/-- `make_category` (lines 154-159) with explicit fuel.  The Python function
recurses without any bound; `none` models a failure — either fuel exhaustion
(standing for non-termination of the descent) or a `KeyError` on
`raw_categories[cat_idx]`.  The termination theorem for claim C9 shows that
with fuel `cats.length + 1` the descent from the roots never fails, so the
fuelled function coincides with the unbounded Python recursion there. -/
def make_category (cats : List RawCategoryLine) : Nat → Int → Option Category
  | 0, _ => none
  | fuel + 1, cat_idx =>
    match makeChildren cats fuel (directChildren cats cat_idx), findRaw cats cat_idx with
    | some children, some raw =>
      some (.mk raw.idx raw.name raw.codes raw.code_ranges raw.parent_idx children)
    | _, _ => none
termination_by fuel _ => (fuel, 0)

/-- The `for child_idx in direct_children[cat_idx]` loop inside
`make_category`, materializing each child in order. -/
def makeChildren (cats : List RawCategoryLine) : Nat → List Int → Option (List Category)
  | _, [] => some []
  | fuel, i :: rest =>
    match make_category cats fuel i, makeChildren cats fuel rest with
    | some c, some cs => some (c :: cs)
    | _, _ => none
termination_by fuel l => (fuel, l.length + 1)
end

/-- The "Make categories" loop (lines 160-162): materialize every root.
Fuel `cats.length + 1` is enough (proved for claim C9). -/
def buildForest (cats : List RawCategoryLine) : Option (List Category) :=
  makeChildren cats (cats.length + 1) (rootsOf cats)

/-! ## Specification-side definitions

These definitions follow the words of the specification (1-indexed columns,
mathematical lexicographic order, "every node of the forest", "parent chain
reaches a parentless record") and are compared with the source embedding in
the claim theorems. -/

/-- Spec-side lexicographic `≤` on strings: equality or the standard strict
lexicographic order on lists of characters (a proper prefix is smaller). -/
def specLexLe (a b : List Char) : Prop :=
  a = b ∨ List.Lex (fun c d : Char => c < d) a b

/-- Spec-side inclusive 1-indexed column slice: characters at positions
`lo` through `hi` of a line (the spec counts from column 1). -/
def cols (l : List Char) (lo hi : Nat) : List Char :=
  (l.drop (lo - 1)).take (hi + 1 - lo)

/-- Spec-side "columns `lo` onward". -/
def colsFrom (l : List Char) (lo : Nat) : List Char := l.drop (lo - 1)

/-- First non-`none` result, modelling "returns the first child's result". -/
def firstSome : List (Option α) → Option α
  | [] => none
  | some a :: _ => some a
  | none :: rest => firstSome rest

mutual
/-- All nodes of a category tree: the node itself and, recursively, every
node of every child (spec-side notion of "occurring anywhere in the
forest"). -/
def Category.allNodes : Category → List Category
  | .mk i n cs rs p children => .mk i n cs rs p children :: allNodesList children

def allNodesList : List Category → List Category
  | [] => []
  | c :: rest => Category.allNodes c ++ allNodesList rest
end

/-- `Subtree n c`: the node `n` occurs in the tree rooted at `c`. -/
inductive Subtree : Category → Category → Prop
  | refl (c : Category) : Subtree c c
  | child (n k c : Category) (hk : k ∈ c.children) (h : Subtree n k) : Subtree n c

/-- `p` is a top-to-bottom chain of nodes starting at `c`, each element after
the first being a child of its predecessor. -/
def isChainFrom : Category → List Category → Prop
  | _, [] => False
  | c, [d] => c = d
  | c, d :: e :: rest => c = d ∧ e ∈ d.children ∧ isChainFrom e (e :: rest)

/-- Spec-side: the record with index `i` has a chain of declared
`parent_idx` references that reaches a parentless record. -/
inductive ReachesRoot (cats : List RawCategoryLine) : Int → Prop
  | root (r : RawCategoryLine) (hr : r ∈ cats) (hp : r.parent_idx = none) :
      ReachesRoot cats r.idx
  | child (r : RawCategoryLine) (p : Int) (hr : r ∈ cats) (hp : r.parent_idx = some p)
      (h : ReachesRoot cats p) : ReachesRoot cats r.idx

/-- A concrete ancestor chain of record indices ending at a parentless
record: `ChainToRoot cats (i :: rest)` says the record with index `i` has
parent `rest.head` and so on, the last element being a root's index. -/
inductive ChainToRoot (cats : List RawCategoryLine) : List Int → Prop
  | single (r : RawCategoryLine) (hr : r ∈ cats) (hp : r.parent_idx = none) :
      ChainToRoot cats [r.idx]
  | cons (r : RawCategoryLine) (p : Int) (rest : List Int) (hr : r ∈ cats)
      (hp : r.parent_idx = some p) (h : ChainToRoot cats (p :: rest)) :
      ChainToRoot cats (r.idx :: p :: rest)

/-! ## Concrete data used by counterexamples and witnesses -/

/-- The category `3 Ignorado 0,3-9` of the test corpus's `sex.cnv`. -/
def exCat3 : Category :=
  .mk 3 "Ignorado".data [.intC 0] [.intR ⟨3, 9⟩] none []

/-- A parsed `CategorySet` holding `exCat3` as its only root. -/
def exCS1 : CategorySet := ⟨1, false, [exCat3]⟩

/-- A leaf child with index 2 containing code 11. -/
def exChild2 : Category := .mk 2 "child".data [.intC 11] [] (some 1) []

/-- A root with index 1 whose only child is `exChild2`. -/
def exRoot2 : Category := .mk 1 "root".data [] [] none [exChild2]

/-- A two-level `CategorySet`: root 1 with child 2. -/
def exCS2 : CategorySet := ⟨2, false, [exRoot2]⟩

/-- Three decoded continuation lines sharing `idx = 7`. -/
def exLineA : RawCategoryLine := ⟨7, none, "Norte".data, "1".data, [.intC 1], []⟩

def exLineB : RawCategoryLine :=
  ⟨7, none, "Norte".data, "2,4-5".data, [.intC 2], [.intR ⟨4, 5⟩]⟩

def exLineC : RawCategoryLine :=
  ⟨7, none, "Norte".data, "3,8-9".data, [.intC 3], [.intR ⟨8, 9⟩]⟩

/-- Merged records for the C9 witness: one root (1), one proper child (2),
a two-cycle (3 ↔ 4), and a record whose declared parent 99 matches no
record. -/
def exCats9 : List RawCategoryLine :=
  [⟨1, none, "R".data, "1".data, [.intC 1], []⟩,
   ⟨2, some 1, "A".data, "2".data, [.intC 2], []⟩,
   ⟨3, some 4, "B".data, "3".data, [.intC 3], []⟩,
   ⟨4, some 3, "C".data, "4".data, [.intC 4], []⟩,
   ⟨5, some 99, "D".data, "5".data, [.intC 5], []⟩]

/-- The test-corpus line `      3  Ignorado ... 0,3-9` used as the C8
witness. -/
def exLine8 : List Char :=
  "      3  Ignorado                                           0,3-9".data

/-- The record decoded from `exLine8` with `letter_codes = False` (the values
asserted by the repository's own test `test_RawCategoryLine_from_cnv_line_1`). -/
def exRec8 : RawCategoryLine :=
  ⟨3, none, "Ignorado".data, "0,3-9".data, [.intC 0], [.intR ⟨3, 9⟩]⟩

/-! ## Theorems -/

/-- `pyStrLe` agrees with the mathematical lexicographic order: Python's
string `<=` holds exactly when the strings are equal or the first is
lexicographically strictly below the second (a proper prefix being below). -/
theorem pyStrLe_iff_specLexLe : ∀ a b : List Char, pyStrLe a b = true ↔ specLexLe a b
  | [], [] => by simp [pyStrLe, specLexLe]
  | [], b :: bs => by
    simp [pyStrLe, specLexLe]
    exact List.Lex.nil
  | a :: as, [] => by
    simp [pyStrLe, specLexLe]
  | a :: as, b :: bs => by
    by_cases hab : a = b
    · subst hab
      rw [show pyStrLe (a :: as) (a :: bs) = pyStrLe as bs from by simp [pyStrLe]]
      rw [pyStrLe_iff_specLexLe as bs]
      constructor
      · intro h
        rcases h with h | h
        · exact Or.inl (by rw [h])
        · exact Or.inr (List.Lex.cons h)
      · intro h
        rcases h with h | h
        · exact Or.inl (by injection h)
        · cases h with
          | cons h => exact Or.inr h
          | rel h => exact absurd h (lt_irrefl a)
    · rw [show pyStrLe (a :: as) (b :: bs) = decide (a < b) from by simp [pyStrLe, hab]]
      constructor
      · intro h
        exact Or.inr (List.Lex.rel (by exact of_decide_eq_true h))
      · intro h
        rcases h with h | h
        · exact absurd (by injection h) hab
        · cases h with
          | cons h2 => exact absurd rfl hab
          | rel h2 => exact decide_eq_true h2

/-- C5: For all strings `a`, `b`, `s`, membership of `s` in `StrRange(a, b)`
holds iff `min(len(a), len(b)) ≤ len(s) ≤ max(len(a), len(b))` and
`a ≤ s ≤ b` lexicographically; in particular `StrRange("A01", "A98")`
contains `"A10"` and `"A98"` but none of `"A00"`, `"A99"`, `"A100"`. -/
theorem C5_strrange_containment :
    (∀ a b s : List Char,
      StrRange.containsB ⟨a, b⟩ s = true ↔
        (min a.length b.length ≤ s.length ∧ s.length ≤ max a.length b.length ∧
         specLexLe a s ∧ specLexLe s b))
    ∧ StrRange.containsB ⟨"A01".data, "A98".data⟩ "A10".data = true
    ∧ StrRange.containsB ⟨"A01".data, "A98".data⟩ "A98".data = true
    ∧ StrRange.containsB ⟨"A01".data, "A98".data⟩ "A00".data = false
    ∧ StrRange.containsB ⟨"A01".data, "A98".data⟩ "A99".data = false
    ∧ StrRange.containsB ⟨"A01".data, "A98".data⟩ "A100".data = false := by
  refine ⟨fun a b s => ?_, by decide, by decide, by decide, by decide, by decide⟩
  simp only [StrRange.containsB, Bool.and_eq_true, decide_eq_true_eq,
    pyStrLe_iff_specLexLe]
  tauto

/-- C6: the token `"0-9"` parses to `IntRange(0, 9)` with `letter_codes`
false and to `StrRange("0", "9")` with `letter_codes` true, while the
non-numeric token `"A0-A9"` parses to `StrRange("A0", "A9")` in both
modes. -/
theorem C6_token_parsing_modes :
    parse_category_code "0-9".data false = .ok (.inr (.intR ⟨0, 9⟩))
    ∧ parse_category_code "0-9".data true = .ok (.inr (.strR ⟨"0".data, "9".data⟩))
    ∧ parse_category_code "A0-A9".data false = .ok (.inr (.strR ⟨"A0".data, "A9".data⟩))
    ∧ parse_category_code "A0-A9".data true = .ok (.inr (.strR ⟨"A0".data, "A9".data⟩)) :=
  ⟨rfl, rfl, rfl, rfl⟩

/-- C4 counterexample: the first line `"  5 2 X"` carries a trailing marker
that is not the letter `L`, yet header parsing does **not** reject it — the
regex simply fails to capture the marker and the line parses with
`letter_codes = False`.  (The source's `raise` branch for a captured non-`L`
marker is unreachable, since the group `(L)` can only capture `L`.) -/
theorem C4_nonL_marker_not_rejected :
    parseHeader "  5 2 X".data = .ok (5, 2, false) := rfl

/-- C4 (amended): header parsing of `"  5 2 L"` yields
`(category_count = 5, code_length = 2, letter_codes = True)`; a first line
containing no digits at all (hence missing the two required digit groups) is
rejected with `InvalidCnvFirstLine`; and a first line whose trailing marker
is not exactly ` L` is *not* rejected — the marker is ignored and
`letter_codes` is `False`. -/
theorem C4_header_parsing_amended :
    parseHeader "  5 2 L".data = .ok (5, 2, true)
    ∧ (∀ line : List Char, (∀ c ∈ line, c.isDigit = false) →
        parseHeader line = .error line)
    ∧ parseHeader "  5 2 X".data = .ok (5, 2, false) := by
  refine ⟨rfl, fun line h => ?_, rfl⟩
  have hs : List.Sublist (line.dropWhile isPyWs) line := List.dropWhile_sublist _
  have hd : (line.dropWhile isPyWs).takeWhile Char.isDigit = [] := by
    cases hcase : line.dropWhile isPyWs with
    | nil => simp
    | cons c rest =>
      have hc : c ∈ line := hs.subset (by rw [hcase]; exact List.mem_cons_self _ _)
      simp [List.takeWhile_cons, h c hc]
  simp [parseHeader, spanWs, spanDigits, hd]

/-- C4 witness: the digit-free line `"abc"` instantiates the rejection
branch of the amended claim. -/
theorem C4_header_parsing_amended_witness :
    (∀ c ∈ "abc".data, c.isDigit = false) ∧ parseHeader "abc".data = .error "abc".data :=
  ⟨by decide, C4_header_parsing_amended.2.1 "abc".data (by decide)⟩

/-- C3 (behaviour of the code at the failing shapes): merging a group of
exactly two continuation lines concatenates `codes` and `code_ranges` and
keeps the first line's `name`/`parent_idx`, but any group of three or more
lines raises `AttributeError` — the accumulator of
`reduce(lambda a, b: a.codes + b.codes, ...)` is a plain list after the
first step and has no `.codes` attribute. -/
theorem C3_continuation_merge_code_bug :
    (∀ a b : RawCategoryLine,
      joinGroup [a, b] =
        .ok { a with codes := a.codes ++ b.codes,
                      code_ranges := a.code_ranges ++ b.code_ranges })
    ∧ (∀ (a b c : RawCategoryLine) (rest : List RawCategoryLine),
        joinGroup (a :: b :: c :: rest) = .error "AttributeError".data) :=
  ⟨fun _ _ => rfl, fun _ _ _ _ => rfl⟩

/-- A child's transitive codes are among the parent's. -/
theorem mem_allCodesList_of_mem {k : Category} {l : List Category}
    (hk : k ∈ l) {x : Code} (hx : x ∈ k.allCodes) : x ∈ allCodesList l := by
  induction l with
  | nil => cases hk
  | cons c rest ih =>
    rcases List.mem_cons.mp hk with h | h
    · subst h
      simp [allCodesList, hx]
    · simp [allCodesList, ih h]

/-- A child's transitive ranges are among the parent's. -/
theorem mem_allRangesList_of_mem {k : Category} {l : List Category}
    (hk : k ∈ l) {x : CodeRange} (hx : x ∈ k.allRanges) : x ∈ allRangesList l := by
  induction l with
  | nil => cases hk
  | cons c rest ih =>
    rcases List.mem_cons.mp hk with h | h
    · subst h
      simp [allRangesList, hx]
    · simp [allRangesList, ih h]

/-- Transitive containment is monotone along the child relation: whatever a
child contains, its parent contains. -/
theorem containsB_of_child {c k : Category} (hk : k ∈ c.children) {item : Code}
    (h : k.containsB item = true) : c.containsB item = true := by
  cases c with
  | mk i n cs rs p children =>
    simp only [Category.containsB, Bool.or_eq_true, List.any_eq_true] at h ⊢
    simp only [Category.children] at hk
    rcases h with ⟨x, hx, hxi⟩ | ⟨r, hr, hri⟩
    · exact Or.inl ⟨x, by
        simp only [Category.allCodes, List.mem_append]
        exact Or.inr (mem_allCodesList_of_mem hk hx), hxi⟩
    · exact Or.inr ⟨r, by
        simp only [Category.allRanges, List.mem_append]
        exact Or.inr (mem_allRangesList_of_mem hk hr), hri⟩

mutual
/-- `get_leaf` hits exactly when the node transitively contains the item. -/
theorem get_leaf_isSome_eq : ∀ (c : Category) (item : Code),
    (c.get_leaf item).isSome = c.containsB item
  | .mk i n cs rs p children, item => by
    have hl := getLeafList_isSome children item
    simp only [Category.get_leaf]
    cases h : getLeafList children item with
    | some ans =>
      have : (getLeafList children item).isSome = true := by simp [h]
      rw [hl] at this
      simp only [Option.isSome_some]
      rcases List.any_eq_true.mp this with ⟨k, hk, hki⟩
      exact (containsB_of_child (c := .mk i n cs rs p children)
        (by simpa [Category.children] using hk) hki).symm
    | none =>
      by_cases hc : (Category.mk i n cs rs p children).containsB item = true
      · simp [hc]
      · simp [Bool.not_eq_true] at hc
        simp [hc]

/-- List version of `get_leaf_isSome_eq`. -/
theorem getLeafList_isSome : ∀ (l : List Category) (item : Code),
    (getLeafList l item).isSome = l.any (fun c => c.containsB item)
  | [], _ => by simp [getLeafList]
  | c :: rest, item => by
    have h1 := get_leaf_isSome_eq c item
    have h2 := getLeafList_isSome rest item
    simp only [getLeafList, List.any_cons]
    cases h : c.get_leaf item with
    | some ans =>
      rw [h] at h1
      simp [← h1]
    | none =>
      rw [h] at h1
      simp only [Option.isSome_none] at h1
      simp [← h1, h2]
end

mutual
/-- The node `get_leaf` returns transitively contains the item. -/
theorem get_leaf_result_contains : ∀ (c : Category) (item : Code) (r : Category),
    c.get_leaf item = some r → r.containsB item = true
  | .mk i n cs rs p children, item, r => by
    simp only [Category.get_leaf]
    cases h : getLeafList children item with
    | some ans =>
      intro hr
      injection hr with hr
      subst hr
      exact getLeafList_result_contains children item ans h
    | none =>
      by_cases hc : (Category.mk i n cs rs p children).containsB item = true
      · intro hr
        simp only [hc, if_true] at hr
        injection hr with hr
        subst hr
        exact hc
      · simp [Bool.not_eq_true] at hc
        simp [hc]

/-- List version of `get_leaf_result_contains`. -/
theorem getLeafList_result_contains : ∀ (l : List Category) (item : Code) (r : Category),
    getLeafList l item = some r → r.containsB item = true
  | [], _, _ => by simp [getLeafList]
  | c :: rest, item, r => by
    simp only [getLeafList]
    cases h : c.get_leaf item with
    | some ans =>
      intro hr
      injection hr with hr
      subst hr
      exact get_leaf_result_contains c item ans h
    | none => exact getLeafList_result_contains rest item r
end

/-- C1 counterexample: in `exCS1` the forest's nodes carry exactly the
identifier 3 — no node has `idx = 9` — yet `cs[9]` does not raise the
claimed `KeyError`: it returns the category with `idx = 3`, because
`__getitem__` performs a *code* lookup through `get_leaf` (9 falls in the
range `3-9`), not an id lookup in the flattened mapping. -/
theorem C1_indexed_lookup_counterexample :
    (exCS1.categories.map Category.allNodes).flatten.map Category.idx = [3]
    ∧ exCS1.getItem (.intC 9) = .ok exCat3 :=
  ⟨rfl, rfl⟩

/-- C1 (amended): `cs[k]` is a *code* lookup, not an id lookup: it returns
`get_leaf(k)` — a category whose transitive codes/ranges contain `k` — and
raises `KeyError(k)` exactly when no root category transitively contains
`k`; the flattened id→node mapping is never consulted. -/
theorem C1_getitem_code_lookup : ∀ (cs : CategorySet) (item : Code),
    ((∀ c ∈ cs.categories, c.containsB item = false) → cs.getItem item = .error item)
    ∧ (∀ c, cs.getItem item = .ok c → c.containsB item = true)
    ∧ cs.getItem item =
        (match cs.get_leaf item with
         | some ans => .ok ans
         | none => .error item) := by
  intro cs item
  refine ⟨fun h => ?_, fun c hc => ?_, rfl⟩
  · have hnone : cs.get_leaf item = none := by
      cases hg : getLeafList cs.categories item with
      | none => simpa [CategorySet.get_leaf] using hg
      | some a =>
        exfalso
        have hsome : (getLeafList cs.categories item).isSome = true := by simp [hg]
        rw [getLeafList_isSome] at hsome
        rcases List.any_eq_true.mp hsome with ⟨k, hk, hki⟩
        rw [h k hk] at hki
        cases hki
    simp [CategorySet.getItem, hnone]
  · have : cs.get_leaf item = some c := by
      cases hg : cs.get_leaf item with
      | some ans =>
        simp only [CategorySet.getItem, hg] at hc
        injection hc with h2
        rw [h2]
      | none => simp [CategorySet.getItem, hg] at hc
    exact getLeafList_result_contains cs.categories item c this

/-- C1 witness: code 99 is contained in no category of `exCS1`, and indeed
`exCS1[99]` raises `KeyError(99)`. -/
theorem C1_getitem_code_lookup_witness :
    (∀ c ∈ exCS1.categories, c.containsB (.intC 99) = false)
    ∧ exCS1.getItem (.intC 99) = .error (.intC 99) :=
  ⟨by decide, (C1_getitem_code_lookup exCS1 (.intC 99)).1 (by decide)⟩

/-- C2 (behaviour of the code at the failing input): the two-level forest
`exCS2` has nodes with identifiers 1 and 2, but `flat_categories` contains
an entry only for the root identifier 1 — the inner `flatten` generator
calls itself on each child without `yield from`, discarding the recursion's
output, so descendants never reach the mapping. -/
theorem C2_flat_categories_code_bug :
    (exCS2.categories.map Category.allNodes).flatten.map Category.idx = [1, 2]
    ∧ exCS2.flat_categories = [(1, exRoot2)]
    ∧ exCS2.flat_categories.map Prod.fst = [1] :=
  ⟨rfl, rfl, rfl⟩

/-- The loop over the children in `get_leaf` returns the first child's
non-`None` result. -/
theorem getLeafList_eq_firstSome : ∀ (l : List Category) (item : Code),
    getLeafList l item = firstSome (l.map (fun k => k.get_leaf item))
  | [], _ => rfl
  | c :: rest, item => by
    simp only [getLeafList, List.map_cons]
    cases h : c.get_leaf item with
    | some ans => simp [firstSome, h]
    | none => simp [firstSome, h, getLeafList_eq_firstSome rest item]

/-- A chain starting at `k` is nonempty with head `k`. -/
theorem isChainFrom_shape {k : Category} {q : List Category}
    (h : isChainFrom k q) : ∃ rest, q = k :: rest := by
  match q with
  | [] => cases h
  | [d] =>
    have : k = d := h
    exact ⟨[], by rw [this]⟩
  | d :: e :: rest =>
    have : k = d := h.1
    exact ⟨e :: rest, by rw [this]⟩

mutual
/-- `get_path` misses exactly when `get_leaf` misses, and a returned path is
a top-down parent-child chain from the node ending at `get_leaf`'s result. -/
theorem get_path_spec : ∀ (c : Category) (item : Code),
    (c.get_path item = none ↔ c.get_leaf item = none)
    ∧ ∀ p, c.get_path item = some p →
        isChainFrom c p ∧ p.getLast? = c.get_leaf item
  | .mk i n cs rs pr children, item => by
    have hlist := getPathList_spec children item
    simp only [Category.get_path, Category.get_leaf]
    cases h : getPathList children item with
    | none =>
      have hleaf : getLeafList children item = none := (hlist.1).mp h
      rw [hleaf]
      by_cases hc : (Category.mk i n cs rs pr children).containsB item = true
      · simp only [hc, if_true]
        refine ⟨by simp, fun p hp => ?_⟩
        injection hp with hp
        subst hp
        exact ⟨rfl, by simp [hc]⟩
      · simp only [Bool.not_eq_true] at hc
        simp [hc]
    | some ans =>
      rcases hlist.2 ans h with ⟨k, hk, hchain, hlast⟩
      have hleaf : ∃ x, getLeafList children item = some x := by
        cases hx : getLeafList children item with
        | none => exact absurd ((hlist.1).mpr hx) (by simp [h])
        | some x => exact ⟨x, rfl⟩
      rcases hleaf with ⟨x, hx⟩
      rw [hx]
      refine ⟨by simp, fun p hp => ?_⟩
      injection hp with hp
      subst hp
      rcases isChainFrom_shape hchain with ⟨rest, hrest⟩
      subst hrest
      constructor
      · exact ⟨rfl, by simpa [Category.children] using hk, hchain⟩
      · rw [List.getLast?_cons_cons]
        rw [hx] at hlast
        exact hlast

/-- List version of `get_path_spec`: the loop over the children either
misses everywhere (exactly when the `get_leaf` loop does) or returns the
path of the first child that hits, whose chain starts at that child and
ends at the result of the `get_leaf` loop. -/
theorem getPathList_spec : ∀ (l : List Category) (item : Code),
    (getPathList l item = none ↔ getLeafList l item = none)
    ∧ ∀ p, getPathList l item = some p →
        ∃ k ∈ l, isChainFrom k p ∧ p.getLast? = getLeafList l item
  | [], _ => by simp [getPathList, getLeafList]
  | c :: rest, item => by
    have hc := get_path_spec c item
    have hr := getPathList_spec rest item
    simp only [getPathList, getLeafList]
    cases h : c.get_path item with
    | some ans =>
      have hcs : ∃ x, c.get_leaf item = some x := by
        cases hx : c.get_leaf item with
        | none => exact absurd ((hc.1).mpr hx) (by simp [h])
        | some x => exact ⟨x, rfl⟩
      rcases hcs with ⟨x, hx⟩
      rw [hx]
      refine ⟨by simp, fun p hp => ?_⟩
      injection hp with hp
      subst hp
      rcases hc.2 ans h with ⟨hchain, hlast⟩
      exact ⟨c, List.mem_cons_self _ _, hchain, by rw [hlast, hx]⟩
    | none =>
      have hcn : c.get_leaf item = none := (hc.1).mp h
      rw [hcn]
      refine ⟨hr.1, fun p hp => ?_⟩
      rcases hr.2 p hp with ⟨k, hk, hchain, hlast⟩
      exact ⟨k, List.mem_cons_of_mem _ hk, hchain, hlast⟩
end

/-- C7: `get_leaf` recurses into the children first, in sibling order,
returning the first child's result, and falls back to the node itself
exactly when the node transitively contains the item; `get_path` misses
exactly when `get_leaf` misses, and otherwise returns the top-down
parent-child chain from the node down to exactly the node `get_leaf`
returns. -/
theorem C7_get_leaf_get_path : ∀ (c : Category) (item : Code),
    (c.get_leaf item =
      (match firstSome (c.children.map (fun k => k.get_leaf item)) with
       | some ans => some ans
       | none => if c.containsB item then some c else none))
    ∧ (c.get_path item = none ↔ c.get_leaf item = none)
    ∧ (∀ p, c.get_path item = some p →
        isChainFrom c p ∧ p.getLast? = c.get_leaf item) := by
  intro c item
  refine ⟨?_, (get_path_spec c item).1, (get_path_spec c item).2⟩
  cases c with
  | mk i n cs rs pr children =>
    simp only [Category.get_leaf, Category.children,
      ← getLeafList_eq_firstSome]

/-- C7 witness: in the two-level tree `exRoot2`, looking up code 11 yields
the path `[exRoot2, exChild2]`, which is a parent-child chain ending at
`get_leaf`'s result. -/
theorem C7_get_leaf_get_path_witness :
    exRoot2.get_path (.intC 11) = some [exRoot2, exChild2]
    ∧ (isChainFrom exRoot2 [exRoot2, exChild2]
       ∧ [exRoot2, exChild2].getLast? = exRoot2.get_leaf (.intC 11)) :=
  ⟨rfl, (C7_get_leaf_get_path exRoot2 (.intC 11)).2.2 [exRoot2, exChild2] rfl⟩

/-- C8: line decoding skips exactly the blank lines and the lines whose
first non-whitespace character is `;`; every successfully decoded record's
fields come from the fixed 1-indexed character columns of the space-padded
line — 1-3 the optional parent index, 4-7 the required integer index,
10-59 the name stripped of surrounding whitespace, and 61 onward the
code specification with trailing whitespace trimmed, parsed as the
comma-separated code/range list. -/
theorem C8_line_decoding : ∀ (line : List Char) (flag : Bool),
    (RawCategoryLine.from_cnv_line line flag = .ok none ↔
      (pyStrip line = [] ∨ (pyLstrip line).head? = some ';'))
    ∧ (∀ r, RawCategoryLine.from_cnv_line line flag = .ok (some r) →
        int_or_none (cols (line ++ List.replicate 70 ' ') 1 3) = .ok r.parent_idx
        ∧ pyInt (cols (line ++ List.replicate 70 ' ') 4 7) = .ok r.idx
        ∧ r.name = pyStrip (cols (line ++ List.replicate 70 ' ') 10 59)
        ∧ r.codes_spec = pyRstrip (colsFrom (line ++ List.replicate 70 ' ') 61)
        ∧ parse_category_codes r.codes_spec flag = .ok (r.codes, r.code_ranges)) := by
  intro line flag
  by_cases h1 : pyStrip line = []
  · constructor
    · simp [RawCategoryLine.from_cnv_line, h1]
    · intro r hr
      simp [RawCategoryLine.from_cnv_line, h1] at hr
  · by_cases h2 : (pyLstrip line).head? = some ';'
    · constructor
      · simp [RawCategoryLine.from_cnv_line, h1, h2]
      · intro r hr
        simp [RawCategoryLine.from_cnv_line, h1, h2] at hr
    · simp only [RawCategoryLine.from_cnv_line, h1, h2, if_false]
      constructor
      · cases hp : int_or_none (pySlice (line ++ List.replicate 70 ' ') 0 3) with
        | error e => simp [hp, h1, h2]
        | ok parent =>
          cases hi : pyInt (pySlice (line ++ List.replicate 70 ' ') 3 7) with
          | error e => simp [hp, hi, h1, h2]
          | ok idx =>
            cases hc : parse_category_codes
                (pyRstrip ((line ++ List.replicate 70 ' ').drop 60)) flag with
            | error e => simp [hp, hi, hc, h1, h2]
            | ok pair => simp [hp, hi, hc, h1, h2]
      · intro r hr
        cases hp : int_or_none (pySlice (line ++ List.replicate 70 ' ') 0 3) with
        | error e =>
          rw [hp] at hr
          injection hr
        | ok parent =>
          cases hi : pyInt (pySlice (line ++ List.replicate 70 ' ') 3 7) with
          | error e =>
            rw [hp, hi] at hr
            injection hr
          | ok idx =>
            cases hc : parse_category_codes
                (pyRstrip ((line ++ List.replicate 70 ' ').drop 60)) flag with
            | error e =>
              rw [hp, hi, hc] at hr
              injection hr
            | ok pair =>
              rcases pair with ⟨codes, code_ranges⟩
              rw [hp, hi, hc] at hr
              injection hr with hr
              injection hr with hr
              subst hr
              exact ⟨hp, hi, rfl, rfl, hc⟩

/-- C8 witness: the corpus line `"      3  Ignorado ... 0,3-9"` decodes to
the record asserted by the repository's own unit test, and its fields come
from the claimed columns. -/
theorem C8_line_decoding_witness :
    RawCategoryLine.from_cnv_line exLine8 false = .ok (some exRec8)
    ∧ (int_or_none (cols (exLine8 ++ List.replicate 70 ' ') 1 3) = .ok exRec8.parent_idx
       ∧ pyInt (cols (exLine8 ++ List.replicate 70 ' ') 4 7) = .ok exRec8.idx
       ∧ exRec8.name = pyStrip (cols (exLine8 ++ List.replicate 70 ' ') 10 59)
       ∧ exRec8.codes_spec = pyRstrip (colsFrom (exLine8 ++ List.replicate 70 ' ') 61)
       ∧ parse_category_codes exRec8.codes_spec false = .ok (exRec8.codes, exRec8.code_ranges)) :=
  ⟨rfl, (C8_line_decoding exLine8 false).2 exRec8 rfl⟩

/-- `rstrip` of an all-whitespace string is empty. -/
theorem pyRstrip_eq_nil {l : List Char} (h : ∀ c ∈ l, isPyWs c = true) :
    pyRstrip l = [] := by
  unfold pyRstrip
  have hrev : l.reverse.dropWhile isPyWs = [] := by
    rw [List.dropWhile_eq_nil_iff]
    intro x hx
    exact h x (List.mem_reverse.mp hx)
  rw [hrev]
  rfl

/-- The empty code specification fails to parse: splitting `""` on commas
yields the single empty token, which matches none of the four patterns. -/
theorem parse_category_codes_nil (flag : Bool) :
    parse_category_codes [] flag = .error [] := by
  cases flag <;> rfl

/-- `mapME` preserves length on success. -/
theorem mapME_length {α β ε : Type} {f : α → Except ε β} :
    ∀ {l : List α} {l' : List β}, mapME f l = .ok l' → l'.length = l.length
  | [], l', h => by
    simp only [mapME] at h
    injection h with h
    rw [← h]
    rfl
  | x :: xs, l', h => by
    simp only [mapME] at h
    cases hx : f x with
    | error e => rw [hx] at h; injection h
    | ok y =>
      cases hxs : mapME f xs with
      | error e => rw [hx, hxs] at h; injection h
      | ok ys =>
        rw [hx, hxs] at h
        injection h with h
        rw [← h]
        simp [mapME_length hxs]

/-- Every parsed token lands in exactly one of the two partitions. -/
theorem filterMap_partition_length : ∀ (l : List (Sum Code CodeRange)),
    (l.filterMap (fun v => match v with | .inl c => some c | .inr _ => none)).length
    + (l.filterMap (fun v => match v with | .inr r => some r | .inl _ => none)).length
    = l.length
  | [] => rfl
  | .inl c :: rest => by
    simp only [List.filterMap_cons, List.length_cons]
    have := filterMap_partition_length rest
    omega
  | .inr r :: rest => by
    simp only [List.filterMap_cons, List.length_cons]
    have := filterMap_partition_length rest
    omega

/-- Splitting never yields an empty list of parts. -/
theorem splitOnChar_ne_nil (sep : Char) : ∀ s : List Char, splitOnChar sep s ≠ []
  | [] => by simp [splitOnChar]
  | c :: cs => by
    simp only [splitOnChar]
    by_cases h : c = sep
    · simp [h]
    · simp only [h, if_false]
      cases hs : splitOnChar sep cs <;> simp

/-- On success, `parse_category_codes` produces one code or range per
comma-separated token. -/
theorem parse_category_codes_ok_length {s : List Char} {flag : Bool}
    {cs : List Code} {rs : List CodeRange}
    (h : parse_category_codes s flag = .ok (cs, rs)) :
    cs.length + rs.length = (splitOnChar ',' s).length := by
  simp only [parse_category_codes] at h
  cases hm : mapME (fun x => parse_category_code x flag) (splitOnChar ',' s) with
  | error e => rw [hm] at h; injection h
  | ok vs =>
    rw [hm] at h
    injection h with h
    injection h with h1 h2
    rw [← h1, ← h2]
    rw [filterMap_partition_length vs, mapME_length hm]

/-- C10: a non-blank, non-comment line whose code-specification column
(characters 61 onward) is empty or whitespace-only fails to decode with an
error (the empty token matches no pattern), and every successfully decoded
record carries at least one code or range. -/
theorem C10_empty_codes_rejected : ∀ (line : List Char) (flag : Bool),
    (pyStrip line ≠ [] → (pyLstrip line).head? ≠ some ';' →
      (∀ c ∈ line.drop 60, isPyWs c = true) →
      ∃ e, RawCategoryLine.from_cnv_line line flag = .error e)
    ∧ (∀ r, RawCategoryLine.from_cnv_line line flag = .ok (some r) →
        1 ≤ r.codes.length + r.code_ranges.length) := by
  intro line flag
  constructor
  · intro h1 h2 h3
    have hws : ∀ c ∈ (line ++ List.replicate 70 ' ').drop 60, isPyWs c = true := by
      intro c hc
      rw [List.drop_append_eq_append_drop] at hc
      rcases List.mem_append.mp hc with h | h
      · exact h3 c h
      · have := List.eq_of_mem_replicate (List.mem_of_mem_drop h)
        rw [this]
        rfl
    have hspec : pyRstrip ((line ++ List.replicate 70 ' ').drop 60) = [] :=
      pyRstrip_eq_nil hws
    simp only [RawCategoryLine.from_cnv_line, h1, h2, if_false]
    cases hp : int_or_none (pySlice (line ++ List.replicate 70 ' ') 0 3) with
    | error e => exact ⟨e, rfl⟩
    | ok parent =>
      cases hi : pyInt (pySlice (line ++ List.replicate 70 ' ') 3 7) with
      | error e => exact ⟨e, rfl⟩
      | ok idx =>
        refine ⟨[], ?_⟩
        rw [hspec, parse_category_codes_nil flag]
  · intro r hr
    by_cases h1 : pyStrip line = []
    · simp [RawCategoryLine.from_cnv_line, h1] at hr
    · by_cases h2 : (pyLstrip line).head? = some ';'
      · simp [RawCategoryLine.from_cnv_line, h1, h2] at hr
      · simp only [RawCategoryLine.from_cnv_line, h1, h2, if_false] at hr
        cases hp : int_or_none (pySlice (line ++ List.replicate 70 ' ') 0 3) with
        | error e =>
          rw [hp] at hr
          injection hr
        | ok parent =>
          cases hi : pyInt (pySlice (line ++ List.replicate 70 ' ') 3 7) with
          | error e =>
            rw [hp, hi] at hr
            injection hr
          | ok idx =>
            cases hc : parse_category_codes
                (pyRstrip ((line ++ List.replicate 70 ' ').drop 60)) flag with
            | error e =>
              rw [hp, hi, hc] at hr
              injection hr
            | ok pair =>
              rcases pair with ⟨codes, code_ranges⟩
              rw [hp, hi, hc] at hr
              injection hr with hr
              injection hr with hr
              subst hr
              have hlen := parse_category_codes_ok_length hc
              have hne := splitOnChar_ne_nil ','
                (pyRstrip ((line ++ List.replicate 70 ' ').drop 60))
              have : 1 ≤ (splitOnChar ','
                  (pyRstrip ((line ++ List.replicate 70 ' ').drop 60))).length := by
                cases hsp : splitOnChar ','
                    (pyRstrip ((line ++ List.replicate 70 ' ').drop 60)) with
                | nil => exact absurd hsp hne
                | cons a l => simp
              simp only [RawCategoryLine.codes, RawCategoryLine.code_ranges]
              omega

/-- C10 witness: the non-blank, non-comment line `"      3  Ignorado"`
(whose column-61-onward area is empty) fails to decode. -/
theorem C10_empty_codes_rejected_witness :
    (pyStrip "      3  Ignorado".data ≠ []
     ∧ (pyLstrip "      3  Ignorado".data).head? ≠ some ';'
     ∧ (∀ c ∈ "      3  Ignorado".data.drop 60, isPyWs c = true))
    ∧ ∃ e, RawCategoryLine.from_cnv_line "      3  Ignorado".data false = .error e :=
  ⟨⟨by decide, by decide, by decide⟩,
    (C10_empty_codes_rejected "      3  Ignorado".data false).1
      (by decide) (by decide) (by decide)⟩

/-- `findRaw` returns a member with the requested index. -/
theorem findRaw_some {cats : List RawCategoryLine} {i : Int} {r : RawCategoryLine}
    (h : findRaw cats i = some r) : r ∈ cats ∧ r.idx = i := by
  refine ⟨List.mem_of_find?_eq_some h, ?_⟩
  have := List.find?_some h
  simpa using this

/-- A record with the requested index makes `findRaw` hit. -/
theorem findRaw_isSome_of_mem {cats : List RawCategoryLine} {r : RawCategoryLine}
    (hr : r ∈ cats) {i : Int} (hi : r.idx = i) : (findRaw cats i).isSome := by
  rw [findRaw, List.find?_isSome]
  exact ⟨r, hr, by simp [hi]⟩

/-- With pairwise-distinct indices (the `raw_categories` dict keys), a record
is determined by its index. -/
theorem raw_unique {cats : List RawCategoryLine}
    (hnd : (cats.map RawCategoryLine.idx).Nodup) {r1 r2 : RawCategoryLine}
    (h1 : r1 ∈ cats) (h2 : r2 ∈ cats) (he : r1.idx = r2.idx) : r1 = r2 :=
  List.inj_on_of_nodup_map hnd h1 h2 he

/-- Characterization of `direct_children`. -/
theorem mem_directChildren {cats : List RawCategoryLine} {p i : Int} :
    i ∈ directChildren cats p ↔
      ∃ r ∈ cats, r.parent_idx = some p ∧ r.idx = i := by
  simp only [directChildren, List.mem_map, List.mem_filter, decide_eq_true_eq]
  constructor
  · rintro ⟨r, ⟨hr, hp⟩, hi⟩
    exact ⟨r, hr, hp, hi⟩
  · rintro ⟨r, hr, hp, hi⟩
    exact ⟨r, ⟨hr, hp⟩, hi⟩

/-- Characterization of the `roots` set. -/
theorem mem_rootsOf {cats : List RawCategoryLine} {i : Int} :
    i ∈ rootsOf cats ↔ ∃ r ∈ cats, r.parent_idx = none ∧ r.idx = i := by
  simp only [rootsOf, List.mem_map, List.mem_filter, decide_eq_true_eq]
  constructor
  · rintro ⟨r, ⟨hr, hp⟩, hi⟩
    exact ⟨r, hr, hp, hi⟩
  · rintro ⟨r, hr, hp, hi⟩
    exact ⟨r, ⟨hr, hp⟩, hi⟩

/-- If every listed index materializes, the loop over them succeeds. -/
theorem makeChildren_isSome {cats : List RawCategoryLine} {fuel : Nat} :
    ∀ {l : List Int}, (∀ i ∈ l, (make_category cats fuel i).isSome) →
      (makeChildren cats fuel l).isSome
  | [], _ => by simp [makeChildren]
  | i :: rest, h => by
    have hi := h i (List.mem_cons_self _ _)
    have hrest := makeChildren_isSome (fun j hj => h j (List.mem_cons_of_mem _ hj))
    rw [makeChildren]
    cases hx : make_category cats fuel i with
    | none => rw [hx] at hi; cases hi
    | some c =>
      cases hy : makeChildren cats fuel rest with
      | none => rw [hy] at hrest; cases hrest
      | some cs => simp

/-- Every listed index contributes a materialized node to the loop's
output. -/
theorem makeChildren_mem {cats : List RawCategoryLine} {fuel : Nat} :
    ∀ {l : List Int} {cs : List Category}, makeChildren cats fuel l = some cs →
      ∀ i ∈ l, ∃ c ∈ cs, make_category cats fuel i = some c
  | [], cs, h => by simp
  | i :: rest, cs, h => by
    rw [makeChildren] at h
    cases hx : make_category cats fuel i with
    | none => rw [hx] at h; injection h
    | some c =>
      cases hy : makeChildren cats fuel rest with
      | none => rw [hx, hy] at h; injection h
      | some cs' =>
        rw [hx, hy] at h
        injection h with h
        subst h
        intro j hj
        rcases List.mem_cons.mp hj with hj | hj
        · exact ⟨c, List.mem_cons_self _ _, by rw [hj, hx]⟩
        · rcases makeChildren_mem hy j hj with ⟨d, hd, hmk⟩
          exact ⟨d, List.mem_cons_of_mem _ hd, hmk⟩

/-- Conversely, every node in the loop's output comes from a listed index. -/
theorem makeChildren_mem_rev {cats : List RawCategoryLine} {fuel : Nat} :
    ∀ {l : List Int} {cs : List Category}, makeChildren cats fuel l = some cs →
      ∀ c ∈ cs, ∃ i ∈ l, make_category cats fuel i = some c
  | [], cs, h => by
    rw [makeChildren] at h
    injection h with h
    subst h
    simp
  | i :: rest, cs, h => by
    rw [makeChildren] at h
    cases hx : make_category cats fuel i with
    | none => rw [hx] at h; injection h
    | some c =>
      cases hy : makeChildren cats fuel rest with
      | none => rw [hx, hy] at h; injection h
      | some cs' =>
        rw [hx, hy] at h
        injection h with h
        subst h
        intro d hd
        rcases List.mem_cons.mp hd with hd | hd
        · exact ⟨i, List.mem_cons_self _ _, by rw [hd]; exact hx⟩
        · rcases makeChildren_mem_rev hy d hd with ⟨j, hj, hmk⟩
          exact ⟨j, List.mem_cons_of_mem _ hj, hmk⟩

/-- Inversion of a successful `make_category` call. -/
theorem make_category_inv {cats : List RawCategoryLine} {fuel : Nat} {idx : Int}
    {c : Category} (h : make_category cats fuel idx = some c) :
    ∃ fuel', fuel = fuel' + 1 ∧
      ∃ children raw,
        makeChildren cats fuel' (directChildren cats idx) = some children
        ∧ findRaw cats idx = some raw
        ∧ c = .mk raw.idx raw.name raw.codes raw.code_ranges raw.parent_idx children := by
  cases fuel with
  | zero => rw [make_category] at h; injection h
  | succ fuel' =>
    rw [make_category] at h
    cases hm : makeChildren cats fuel' (directChildren cats idx) with
    | none => rw [hm] at h; injection h
    | some children =>
      cases hf : findRaw cats idx with
      | none => rw [hm, hf] at h; injection h
      | some raw =>
        rw [hm, hf] at h
        injection h with h
        exact ⟨fuel', rfl, children, raw, hm, rfl, h.symm⟩

/-- A materialized node carries the index it was materialized for. -/
theorem make_category_idx {cats : List RawCategoryLine} {fuel : Nat} {idx : Int}
    {c : Category} (h : make_category cats fuel idx = some c) : c.idx = idx := by
  rcases make_category_inv h with ⟨fuel', _, children, raw, _, hf, hc⟩
  rw [hc]
  exact (findRaw_some hf).2

/-- Every index on an ancestor chain is the index of some record. -/
theorem chainToRoot_subset {cats : List RawCategoryLine} :
    ∀ {ch : List Int}, ChainToRoot cats ch →
      ∀ x ∈ ch, x ∈ cats.map RawCategoryLine.idx := by
  intro ch h
  induction h with
  | single r hr hp =>
    intro x hx
    rcases List.mem_singleton.mp hx with rfl
    exact List.mem_map.mpr ⟨r, hr, rfl⟩
  | cons r p rest hr hp h ih =>
    intro x hx
    rcases List.mem_cons.mp hx with rfl | hx
    · exact List.mem_map.mpr ⟨r, hr, rfl⟩
    · exact ih x hx

/-- Every element of an ancestor chain starts an ancestor chain (the
corresponding suffix). -/
theorem chainToRoot_mem_suffix {cats : List RawCategoryLine} :
    ∀ {ch : List Int}, ChainToRoot cats ch → ∀ {c : Int}, c ∈ ch →
      ∃ suffix, (c :: suffix) <:+ ch ∧ ChainToRoot cats (c :: suffix) := by
  intro ch h
  induction h with
  | single r hr hp =>
    intro c hc
    rcases List.mem_singleton.mp hc with rfl
    exact ⟨[], List.suffix_refl _, ChainToRoot.single r hr hp⟩
  | cons r p rest hr hp h ih =>
    intro c hc
    rcases List.mem_cons.mp hc with rfl | hc
    · exact ⟨p :: rest, List.suffix_refl _, ChainToRoot.cons r p rest hr hp h⟩
    · rcases ih hc with ⟨suffix, hsuf, hchain⟩
      exact ⟨suffix, hsuf.trans (List.suffix_cons _ _), hchain⟩

/-- Inversion of an ancestor chain at its head. -/
theorem chainToRoot_inv {cats : List RawCategoryLine} {c : Int} {suffix : List Int}
    (h : ChainToRoot cats (c :: suffix)) :
    ∃ r ∈ cats, r.idx = c ∧
      ((suffix = [] ∧ r.parent_idx = none)
       ∨ (∃ p rest, suffix = p :: rest ∧ r.parent_idx = some p)) := by
  cases h with
  | single r hr hp => exact ⟨r, hr, rfl, Or.inl ⟨rfl, hp⟩⟩
  | cons r p rest hr hp h => exact ⟨r, hr, rfl, Or.inr ⟨p, rest, rfl, hp⟩⟩

/-- Extending a duplicate-free ancestor chain by a child of its head keeps
it duplicate-free: the child's index cannot already lie on the chain,
because each chain element's unique record points at the next element (or at
nothing, for the final root), never back at the head. -/
theorem chain_nodup_extend {cats : List RawCategoryLine}
    (hnd : (cats.map RawCategoryLine.idx).Nodup) {c : Int} {tail : List Int}
    (hchain : ChainToRoot cats (c :: tail)) (hnodup : (c :: tail).Nodup)
    {r : RawCategoryLine} (hr : r ∈ cats) (hp : r.parent_idx = some c) :
    r.idx ∉ (c :: tail) := by
  intro hmem
  rcases chainToRoot_mem_suffix hchain hmem with ⟨suffix, hsuf, hsub⟩
  rcases chainToRoot_inv hsub with ⟨r', hr', hidx, hcase⟩
  have hrr : r' = r := raw_unique hnd hr' hr hidx
  subst hrr
  rcases hcase with ⟨hnil, hnone⟩ | ⟨p, rest, hcons, hsome⟩
  · rw [hp] at hnone
    injection hnone
  · rw [hp] at hsome
    injection hsome with hpc
    subst hpc
    subst hcons
    rcases List.suffix_cons_iff.mp hsuf with hwhole | htail
    · have : tail = c :: rest := by injection hwhole with h1 h2; exact h2.symm
      have : c ∈ tail := by rw [this]; exact List.mem_cons_self _ _
      exact (List.nodup_cons.mp hnodup).1 this
    · have : c ∈ tail := htail.subset (List.mem_cons_of_mem _ (List.mem_cons_self _ _))
      exact (List.nodup_cons.mp hnodup).1 this

/-- A duplicate-free list included in another list is no longer than it. -/
theorem nodup_subset_length {l1 l2 : List Int} (hnd : l1.Nodup)
    (hsub : ∀ x ∈ l1, x ∈ l2) : l1.length ≤ l2.length := by
  calc l1.length = l1.toFinset.card := (List.toFinset_card_of_nodup hnd).symm
    _ ≤ l2.toFinset.card := Finset.card_le_card (fun x hx => by
        rw [List.mem_toFinset] at hx ⊢
        exact hsub x hx)
    _ ≤ l2.length := l2.toFinset_card_le

/-- Fuel sufficiency: materializing an index whose ancestor chain (of
pairwise-distinct indices) reaches a root succeeds whenever the fuel exceeds
the number of records not yet on the chain.  This is the termination
argument for the unbounded Python recursion: descending from a root, the
chain grows strictly and is bounded by the number of records. -/
theorem fuel_sufficient {cats : List RawCategoryLine}
    (hnd : (cats.map RawCategoryLine.idx).Nodup) :
    ∀ (fuel : Nat) (c : Int) (tail : List Int),
      ChainToRoot cats (c :: tail) → (c :: tail).Nodup →
      cats.length + 1 ≤ fuel + (c :: tail).length →
      (make_category cats fuel c).isSome := by
  intro fuel
  induction fuel with
  | zero =>
    intro c tail hchain hnodup hbound
    exfalso
    have hlen : (c :: tail).length ≤ cats.length := by
      have := nodup_subset_length hnodup (chainToRoot_subset hchain)
      simpa using this
    omega
  | succ fuel ih =>
    intro c tail hchain hnodup hbound
    have hkids : ∀ i ∈ directChildren cats c, (make_category cats fuel i).isSome := by
      intro i hi
      rcases mem_directChildren.mp hi with ⟨rc, hrc, hpc, hic⟩
      have hnotin : i ∉ (c :: tail) := by
        rw [← hic]
        exact chain_nodup_extend hnd hchain hnodup hrc hpc
      have hchain' : ChainToRoot cats (i :: c :: tail) := by
        rw [← hic]
        exact ChainToRoot.cons rc c tail hrc hpc hchain
      have hnodup' : (i :: c :: tail).Nodup := List.nodup_cons.mpr ⟨hnotin, hnodup⟩
      exact ih i (c :: tail) hchain' hnodup' (by simp at hbound ⊢; omega)
    have hmk : (makeChildren cats fuel (directChildren cats c)).isSome :=
      makeChildren_isSome hkids
    rcases chainToRoot_inv hchain with ⟨r, hr, hidx, _⟩
    have hfind : (findRaw cats c).isSome := findRaw_isSome_of_mem hr hidx
    rw [make_category]
    cases hm : makeChildren cats fuel (directChildren cats c) with
    | none => rw [hm] at hmk; cases hmk
    | some children =>
      cases hf : findRaw cats c with
      | none => rw [hf] at hfind; cases hfind
      | some raw => simp

/-- `Subtree` is transitive. -/
theorem subtree_trans {a b c : Category} (hab : Subtree a b) (hbc : Subtree b c) :
    Subtree a c := by
  induction hbc with
  | refl => exact hab
  | child k d hk h ih => exact Subtree.child a k d hk ih

/-- Every node inside a materialized tree was itself produced by some
`make_category` call (with some fuel) on its own index. -/
theorem subtree_origin {cats : List RawCategoryLine} :
    ∀ (fuel : Nat) (idx : Int) (c : Category),
      make_category cats fuel idx = some c →
      ∀ n, Subtree n c → ∃ g, make_category cats g n.idx = some n := by
  intro fuel
  induction fuel with
  | zero =>
    intro idx c h
    rw [make_category] at h
    injection h
  | succ fuel ih =>
    intro idx c h n hn
    rcases make_category_inv h with ⟨fuel', hf, children, raw, hmk, hfind, hc⟩
    injection hf with hf
    subst hf
    cases hn with
    | refl =>
      refine ⟨fuel + 1, ?_⟩
      rw [make_category_idx h]
      exact h
    | child k hsub hkmem =>
      rename_i hsubtree
      have hkch : k ∈ children := by
        rw [hc] at hkmem
        simpa [Category.children] using hkmem
      rcases makeChildren_mem_rev hmk k hkch with ⟨i, hi, hmki⟩
      exact ih i k hmki n hsubtree

/-- Every node inside a tree materialized from a root-reaching index has a
root-reaching index itself. -/
theorem reachesRoot_of_subtree {cats : List RawCategoryLine} :
    ∀ (fuel : Nat) (idx : Int) (c : Category),
      make_category cats fuel idx = some c → ReachesRoot cats idx →
      ∀ n, Subtree n c → ReachesRoot cats n.idx := by
  intro fuel
  induction fuel with
  | zero =>
    intro idx c h
    rw [make_category] at h
    injection h
  | succ fuel ih =>
    intro idx c h hreach n hn
    rcases make_category_inv h with ⟨fuel', hf, children, raw, hmk, hfind, hc⟩
    injection hf with hf
    subst hf
    cases hn with
    | refl =>
      rw [make_category_idx h]
      exact hreach
    | child k hsub hkmem =>
      rename_i hsubtree
      have hkch : k ∈ children := by
        rw [hc] at hkmem
        simpa [Category.children] using hkmem
      rcases makeChildren_mem_rev hmk k hkch with ⟨i, hi, hmki⟩
      rcases mem_directChildren.mp hi with ⟨rc, hrc, hpc, hic⟩
      have hreach' : ReachesRoot cats i := by
        rw [← hic]
        exact ReachesRoot.child rc idx hrc hpc hreach
      exact ih i k hmki hreach' n hsubtree

/-- C9: for records with pairwise-distinct indices (as produced by the
`raw_categories` dict), materialization from the roots terminates (the fuel
`cats.length + 1` is never exhausted and every `raw_categories[...]` lookup
hits), and the resulting forest contains a node with index `i` exactly when
record `i`'s chain of declared `parent_idx` references reaches a parentless
record; records with dangling parents or parent cycles are silently omitted
— no error is raised and no infinite recursion occurs, because
materialization descends only from the parentless roots. -/
theorem C9_tree_construction : ∀ (cats : List RawCategoryLine),
    (cats.map RawCategoryLine.idx).Nodup →
    ∃ forest, buildForest cats = some forest
      ∧ ∀ i : Int,
          (∃ t ∈ forest, ∃ n, Subtree n t ∧ n.idx = i) ↔ ReachesRoot cats i := by
  intro cats hnd
  have hroots : ∀ ri ∈ rootsOf cats,
      (make_category cats (cats.length + 1) ri).isSome := by
    intro ri hri
    rcases mem_rootsOf.mp hri with ⟨r, hr, hp, hidx⟩
    have hchain : ChainToRoot cats [ri] := by
      rw [← hidx]
      exact ChainToRoot.single r hr hp
    exact fuel_sufficient hnd (cats.length + 1) ri [] hchain
      (List.nodup_singleton _) (by simp)
  have hforest : (buildForest cats).isSome := makeChildren_isSome hroots
  cases hb : buildForest cats with
  | none => rw [hb] at hforest; cases hforest
  | some forest =>
    refine ⟨forest, rfl, fun i => ⟨?_, ?_⟩⟩
    · rintro ⟨t, ht, n, hsub, hidx⟩
      rcases makeChildren_mem_rev hb t ht with ⟨ri, hri, hmk⟩
      rcases mem_rootsOf.mp hri with ⟨r, hr, hp, hridx⟩
      have hreach : ReachesRoot cats ri := by
        rw [← hridx]
        exact ReachesRoot.root r hr hp
      rw [← hidx]
      exact reachesRoot_of_subtree (cats.length + 1) ri t hmk hreach n hsub
    · intro hreach
      induction hreach with
      | root r hr hp =>
        have hri : r.idx ∈ rootsOf cats := mem_rootsOf.mpr ⟨r, hr, hp, rfl⟩
        rcases makeChildren_mem hb r.idx hri with ⟨t, ht, hmk⟩
        exact ⟨t, ht, t, Subtree.refl t, make_category_idx hmk⟩
      | child r p hr hp h ih =>
        rcases ih with ⟨t, ht, n, hsub, hidx⟩
        rcases makeChildren_mem_rev hb t ht with ⟨ri, hri, hmkt⟩
        rcases subtree_origin (cats.length + 1) ri t hmkt n hsub with ⟨g, hg⟩
        rw [hidx] at hg
        rcases make_category_inv hg with ⟨g', hgf, children', raw, hmk', hfind, hn⟩
        have hrchild : r.idx ∈ directChildren cats p :=
          mem_directChildren.mpr ⟨r, hr, hp, rfl⟩
        rcases makeChildren_mem hmk' r.idx hrchild with ⟨y, hy, hmky⟩
        have hyn : Subtree y n := by
          refine Subtree.child y y n ?_ (Subtree.refl y)
          rw [hn]
          simpa [Category.children] using hy
        exact ⟨t, ht, y, subtree_trans hyn hsub, make_category_idx hmky⟩

/-- C9 witness: in `exCats9` — root 1, child 2 of 1, mutual cycle 3 ↔ 4,
and record 5 with dangling parent 99 — construction succeeds and the forest
holds exactly the root-reaching indices (1 and 2). -/
theorem C9_tree_construction_witness :
    (exCats9.map RawCategoryLine.idx).Nodup
    ∧ ∃ forest, buildForest exCats9 = some forest
      ∧ ∀ i : Int,
          (∃ t ∈ forest, ∃ n, Subtree n t ∧ n.idx = i) ↔ ReachesRoot exCats9 i :=
  ⟨by decide, C9_tree_construction exCats9 (by decide)⟩
